import Mathlib

/-!
Verification of the knapsack core of ProjectBarks/quote-tool
(`src/knapsack.pyx`): a Cython 0/1-knapsack solver.  The public
`knapsack(values, weights, max_weight)` marshals the caller's sequences
into typed buffers (`array.array('f', values)`, `array.array('i', weights)`)
and calls `_knapsack`, which allocates a `(len(weights)+1) x (max_weight+1)`
zero table of doubles (`np.zeros((rows, cols))`), fills rows
`1..len(weights)` bottom-up with the 0/1-knapsack recurrence, and returns
`dp_array[rows-1][cols-1]`.

Embedding choices:
* Double/float arithmetic on item values is modelled exactly, over an
  arbitrary linearly ordered additive commutative monoid `α` (so the
  theorems cover `ℤ`, `ℚ`, `ℝ`, ...); the narrowing of caller doubles to
  single precision performed by `array.array('f', values)` is therefore
  modelled as the identity.  C `int` arithmetic is modelled over `ℤ`
  (the claims under study stay far below `2^31`, where C `int` and `ℤ`
  agree).
* numpy / Cython memoryview indexing is bounds-checked, with one round of
  negative-index wraparound (the module sets no `boundscheck` /
  `wraparound` directives, so the Cython defaults apply); a failed access
  raises `IndexError`.  Every such access is modelled by `npGet`, and the
  whole computation lives in `Except String`.
* `np.zeros((rows, cols))` with a negative `cols` raises `ValueError`;
  this happens exactly when `max_weight <= -2`.
-/

set_option linter.unusedSectionVars false

set_option linter.unusedVariables false

namespace Knapsack

variable {α : Type} [LinearOrderedAddCommMonoid α]

/-- Bounds-checked numpy-style / Cython-memoryview access into a buffer:
a negative index wraps once by the length, anything still out of range
raises `IndexError`. -/
def npGet {β : Type} (d : β) (l : List β) (i : ℤ) : Except String β :=
  let k := if i < 0 then i + l.length else i
  if 0 ≤ k ∧ k < (l.length : ℤ) then .ok (l.getD k.toNat d) else .error "IndexError"

/-- Sequential fail-fast evaluation of the entries of one table row: the
inner `for j in range(1, cols)` loop writes entries left to right and any
raised access aborts the whole call. -/
def mapExcept (f : ℕ → Except String α) : List ℕ → Except String (List α)
  | [] => .ok []
  | j :: js => do
    let x ← f j
    let xs ← mapExcept f js
    .ok (x :: xs)

/-- Body of the inner loop of `_knapsack` at row `i ≥ 1`, column `j ≥ 1`,
given the previous row `prev` (row `i-1` of the table) and the current
item weight `w = weights[i-1]`:

    weight = weights[i - 1]
    if j - weight >= 0:
        value = values[i - 1]
        dp_array[i][j] = max(dp_array[i - 1][j], value + dp_array[i - 1][j - weight])
    else:
        dp_array[i][j] = dp_array[i - 1][j]

The three buffer accesses happen in source order (`values[i-1]`,
`dp_array[i-1][j]`, `dp_array[i-1][j-weight]`). -/
def dpEntry (values : List α) (prev : List α) (w : ℤ) (i j : ℕ) : Except String α :=
  if 0 ≤ (j : ℤ) - w then do
    let value ← npGet 0 values ((i : ℤ) - 1)
    let keep ← npGet 0 prev (j : ℤ)
    let inc ← npGet 0 prev ((j : ℤ) - w)
    .ok (max keep (value + inc))
  else
    npGet 0 prev (j : ℤ)

/-- Row `i` of the DP table as the loops of `_knapsack` leave it: row 0 is
the untouched `np.zeros` row; row `i+1` is computed from row `i` with
`weight = weights[(i+1)-1]`, entry `j = 0` keeping its zero initial value
because the inner loop starts at `j = 1`.  (In the source `weights[i-1]`
is re-read on every inner iteration; it is always the same in-bounds
element, so it is read once per row here.) -/
def knapRow (values : List α) (weights : List ℤ) (cols : ℕ) : ℕ → Except String (List α)
  | 0 => .ok (List.replicate cols 0)
  | i + 1 => do
    let prev ← knapRow values weights cols i
    let w ← npGet 0 weights ((i : ℤ) + 1 - 1)
    mapExcept (fun j => if j = 0 then .ok 0 else dpEntry values prev w (i + 1) j)
      (List.range cols)

/-- Model of `cdef _knapsack(float[:] values, int[:] weights, int max_weight)`:
with `rows = len(weights) + 1` and `cols = max_weight + 1`, allocate the
`rows x cols` zero table (raising `ValueError` when `cols < 0`), run the
two nested loops over rows `1..rows-1` and columns `1..cols-1`, and return
`dp_array[rows - 1][cols - 1]`. -/
def _knapsack (values : List α) (weights : List ℤ) (max_weight : ℤ) : Except String α :=
  if max_weight + 1 < 0 then .error "ValueError"
  else do
    let last ← knapRow values weights (max_weight + 1).toNat (weights.length + 1 - 1)
    npGet 0 last (max_weight + 1 - 1)

/-- Model of the translation layer `def knapsack(values, weights, max_weight)`.
With doubles modelled exactly and C ints modelled as `ℤ`, the
`array.array('f', ...)` / `array.array('i', ...)` conversions are
value-preserving, so the layer reduces to the call into the core. -/
def knapsack (values : List α) (weights : List ℤ) (max_weight : ℤ) : Except String α :=
  _knapsack values weights max_weight

/-- Whether a call of the solver returned normally (no Python exception). -/
def returnsOk : Except String α → Bool
  | .ok _ => true
  | .error _ => false

/-- The bottom-up recurrence of the specification (§4.2) as a total
function on table coordinates: row 0 and column 0 are zero, and entry
`(i+1, j+1)` chooses the better of excluding item `i` or including it
when it fits (`j+1 - weights[i] ≥ 0`). -/
def dpTable (values : List α) (weights : List ℤ) : ℕ → ℕ → α
  | 0, _ => 0
  | _ + 1, 0 => 0
  | i + 1, j + 1 =>
    if 0 ≤ (j : ℤ) + 1 - weights.getD i 0 then
      max (dpTable values weights i (j + 1))
        (values.getD i 0 + dpTable values weights i (((j : ℤ) + 1 - weights.getD i 0).toNat))
    else
      dpTable values weights i (j + 1)

/-- Total weight of a set of item indices. -/
def subsetWt (weights : List ℤ) (s : Finset ℕ) : ℤ := ∑ k ∈ s, weights.getD k 0

/-- Total value of a set of item indices. -/
def subsetVal (values : List α) (s : Finset ℕ) : α := ∑ k ∈ s, values.getD k 0

/-- All subsets of the first `n` item indices whose total weight is at
most `cap`. -/
def feasibleSets (weights : List ℤ) (n : ℕ) (cap : ℤ) : Finset (Finset ℕ) :=
  (Finset.range n).powerset.filter fun s => subsetWt weights s ≤ cap

/-- The specification's brute-force optimum: the maximum of `Σ value_k`
over every subset of the first `n` item indices with total weight at most
`cap` (0 if no subset is feasible, which happens only for `cap < 0`). -/
def bestValue (values : List α) (weights : List ℤ) (n : ℕ) (cap : ℤ) : α :=
  (((feasibleSets weights n cap).image (subsetVal values)).max).unbot' 0

/-! ### Basic lemmas about the embedding -/

theorem ok_bind {β γ : Type} (a : β) (f : β → Except String γ) :
    (Except.ok a : Except String β) >>= f = f a := rfl

theorem npGet_ok {β : Type} (d : β) (l : List β) (i : ℤ) (h0 : 0 ≤ i)
    (h1 : i < (l.length : ℤ)) : npGet d l i = .ok (l.getD i.toNat d) := by
  have hk : ¬ i < 0 := not_lt.mpr h0
  simp [npGet, hk, h0, h1]

theorem mapExcept_ok {f : ℕ → Except String α} {g : ℕ → α} :
    ∀ l : List ℕ, (∀ j ∈ l, f j = .ok (g j)) → mapExcept f l = .ok (l.map g)
  | [], _ => rfl
  | j :: js, h => by
    simp only [mapExcept, h j (List.mem_cons_self j js), List.map_cons, ok_bind]
    rw [mapExcept_ok js (fun x hx => h x (List.mem_cons_of_mem _ hx)), ok_bind]

theorem dpTable_zero (values : List α) (weights : List ℤ) (j : ℕ) :
    dpTable values weights 0 j = 0 := rfl

theorem dpTable_col0 (values : List α) (weights : List ℤ) (i : ℕ) :
    dpTable values weights i 0 = 0 := by cases i <;> rfl

theorem dpTable_succ (values : List α) (weights : List ℤ) (i j : ℕ) :
    dpTable values weights (i + 1) (j + 1) =
      if 0 ≤ (j : ℤ) + 1 - weights.getD i 0 then
        max (dpTable values weights i (j + 1))
          (values.getD i 0 + dpTable values weights i (((j : ℤ) + 1 - weights.getD i 0).toNat))
      else
        dpTable values weights i (j + 1) := rfl

/-! ### Monotonicity of the table -/

theorem dpTable_le_succ_row (values : List α) (weights : List ℤ) (i j : ℕ) :
    dpTable values weights i j ≤ dpTable values weights (i + 1) j := by
  cases j with
  | zero => rw [dpTable_col0, dpTable_col0]
  | succ j =>
    rw [dpTable_succ]
    split
    · exact le_max_left _ _
    · exact le_rfl

theorem dpTable_row_mono (values : List α) (weights : List ℤ) {i i' : ℕ}
    (h : i ≤ i') (j : ℕ) :
    dpTable values weights i j ≤ dpTable values weights i' j := by
  induction h with
  | refl => exact le_rfl
  | step _ ih => exact ih.trans (dpTable_le_succ_row values weights _ j)

theorem dpTable_nonneg (values : List α) (weights : List ℤ) (i j : ℕ) :
    0 ≤ dpTable values weights i j := by
  have := dpTable_row_mono values weights (Nat.zero_le i) j
  rwa [dpTable_zero] at this

theorem dpTable_le_succ_col (values : List α) (weights : List ℤ) (i : ℕ) :
    ∀ j, dpTable values weights i j ≤ dpTable values weights i (j + 1) := by
  induction i with
  | zero => intro j; rw [dpTable_zero, dpTable_zero]
  | succ i ih =>
    intro j
    cases j with
    | zero => rw [dpTable_col0]; exact dpTable_nonneg values weights (i + 1) 1
    | succ j =>
      rw [dpTable_succ, dpTable_succ]
      by_cases h1 : 0 ≤ (j : ℤ) + 1 - weights.getD i 0
      · have h2 : 0 ≤ ((j + 1 : ℕ) : ℤ) + 1 - weights.getD i 0 := by push_cast; omega
        rw [if_pos h1, if_pos h2]
        apply max_le_max
        · exact ih (j + 1)
        · apply add_le_add_left
          have he : (((j + 1 : ℕ) : ℤ) + 1 - weights.getD i 0).toNat =
              (((j : ℤ) + 1 - weights.getD i 0).toNat) + 1 := by push_cast; omega
          rw [he]
          exact ih _
      · by_cases h2 : 0 ≤ ((j + 1 : ℕ) : ℤ) + 1 - weights.getD i 0
        · rw [if_neg h1, if_pos h2]
          exact (ih (j + 1)).trans (le_max_left _ _)
        · rw [if_neg h1, if_neg h2]
          exact ih (j + 1)

theorem dpTable_col_mono (values : List α) (weights : List ℤ) (i : ℕ) {j j' : ℕ}
    (h : j ≤ j') : dpTable values weights i j ≤ dpTable values weights i j' := by
  induction h with
  | refl => exact le_rfl
  | step _ ih => exact ih.trans (dpTable_le_succ_col values weights i _)

/-! ### The table against the brute-force subset optimum -/

theorem getD_mem_or {β : Type} (l : List β) (k : ℕ) (d : β) :
    l.getD k d ∈ l ∨ l.getD k d = d := by
  induction l generalizing k with
  | nil => right; rfl
  | cons x xs ih =>
    cases k with
    | zero => left; exact List.mem_cons_self x xs
    | succ k =>
      rcases ih k with h | h
      · left; exact List.mem_cons_of_mem _ h
      · right; exact h

theorem getD_mem {β : Type} {l : List β} {k : ℕ} (h : k < l.length) (d : β) :
    l.getD k d ∈ l := by
  induction l generalizing k with
  | nil => simp at h
  | cons x xs ih =>
    cases k with
    | zero => exact List.mem_cons_self x xs
    | succ k => exact List.mem_cons_of_mem _ (ih (by simpa using h) )

theorem weights_getD_nonneg {weights : List ℤ} (Hw : ∀ x ∈ weights, 0 ≤ x) (k : ℕ) :
    0 ≤ weights.getD k 0 := by
  rcases getD_mem_or weights k 0 with h | h
  · exact Hw _ h
  · rw [h]

theorem subsetWt_nonneg {weights : List ℤ} (Hw : ∀ x ∈ weights, 0 ≤ x) (s : Finset ℕ) :
    0 ≤ subsetWt weights s :=
  Finset.sum_nonneg fun k _ => weights_getD_nonneg Hw k

/-- Every feasible subset of the first `n` items is dominated by table
entry `(n, j)`, provided every weight is a positive integer. -/
theorem subsetVal_le_dpTable (values : List α) (weights : List ℤ)
    (Hw : ∀ x ∈ weights, 1 ≤ x) :
    ∀ n, n ≤ weights.length → ∀ (j : ℕ) (s : Finset ℕ), s ⊆ Finset.range n →
      subsetWt weights s ≤ (j : ℤ) → subsetVal values s ≤ dpTable values weights n j := by
  have Hw0 : ∀ x ∈ weights, (0 : ℤ) ≤ x := fun x hx => (Hw x hx).trans' (by omega)
  intro n
  induction n with
  | zero =>
    intro _ j s hs _
    have hse : s = ∅ := Finset.subset_empty.mp (by simpa using hs)
    subst hse
    rw [dpTable_zero]
    simp [subsetVal]
  | succ n ih =>
    intro hn j s hs hwt
    by_cases hmem : n ∈ s
    · have hw1 : 1 ≤ weights.getD n 0 := Hw _ (getD_mem (by omega) 0)
      have herase : s.erase n ⊆ Finset.range n := by
        intro x hx
        have hx1 := hs (Finset.mem_of_mem_erase hx)
        have hx2 := Finset.ne_of_mem_erase hx
        rw [Finset.mem_range] at hx1 ⊢
        omega
      have hsplit : subsetWt weights (s.erase n) + weights.getD n 0 = subsetWt weights s :=
        Finset.sum_erase_add s _ hmem
      have h0 : 0 ≤ subsetWt weights (s.erase n) :=
        Finset.sum_nonneg fun k _ => weights_getD_nonneg Hw0 k
      have hwj : weights.getD n 0 ≤ (j : ℤ) := by omega
      obtain ⟨j', rfl⟩ : ∃ j', j = j' + 1 := by
        cases j with
        | zero => exfalso; omega
        | succ j' => exact ⟨j', rfl⟩
      rw [dpTable_succ, if_pos (by omega)]
      have hval : subsetVal values (s.erase n) + values.getD n 0 = subsetVal values s :=
        Finset.sum_erase_add s _ hmem
      have hwt' : subsetWt weights (s.erase n) ≤
          ((((j' : ℤ) + 1 - weights.getD n 0).toNat : ℕ) : ℤ) := by
        rw [Int.toNat_of_nonneg (by push_cast at hwj ⊢; omega)]
        push_cast at hwt ⊢
        omega
      have hih := ih (by omega) _ (s.erase n) herase hwt'
      calc subsetVal values s
          = values.getD n 0 + subsetVal values (s.erase n) := by rw [← hval, add_comm]
        _ ≤ values.getD n 0 + dpTable values weights n (((j' : ℤ) + 1 - weights.getD n 0).toNat) :=
            add_le_add_left hih _
        _ ≤ _ := le_max_right _ _
    · have hs' : s ⊆ Finset.range n := by
        intro x hx
        have := hs hx
        rw [Finset.mem_range] at this ⊢
        rcases Nat.lt_succ_iff_lt_or_eq.mp this with h | h
        · exact h
        · exact absurd (h ▸ hx) hmem
      exact (ih (by omega) j s hs' hwt).trans (dpTable_le_succ_row values weights n j)

/-- Table entry `(n, j)` is achieved by some feasible subset of the first
`n` items (for any weights: the included-item branch is only ever taken
when the residual capacity is non-negative). -/
theorem exists_subset_dpTable (values : List α) (weights : List ℤ) :
    ∀ (n j : ℕ), ∃ s : Finset ℕ, s ⊆ Finset.range n ∧ subsetWt weights s ≤ (j : ℤ) ∧
      subsetVal values s = dpTable values weights n j := by
  intro n
  induction n with
  | zero =>
    intro j
    exact ⟨∅, by simp, by simp [subsetWt], by simp [subsetVal, dpTable_zero]⟩
  | succ n ih =>
    intro j
    cases j with
    | zero =>
      exact ⟨∅, by simp, by simp [subsetWt], by simp [subsetVal, dpTable_col0]⟩
    | succ j =>
      rw [dpTable_succ]
      by_cases hc : 0 ≤ (j : ℤ) + 1 - weights.getD n 0
      · rw [if_pos hc]
        rcases max_choice (dpTable values weights n (j + 1))
            (values.getD n 0 +
              dpTable values weights n (((j : ℤ) + 1 - weights.getD n 0).toNat)) with h | h
        · rcases ih (j + 1) with ⟨s, h1, h2, h3⟩
          exact ⟨s, h1.trans (Finset.range_subset.mpr (Nat.le_succ n)), h2, by rw [h, h3]⟩
        · rcases ih (((j : ℤ) + 1 - weights.getD n 0).toNat) with ⟨s, h1, h2, h3⟩
          have hns : n ∉ s := fun hh => absurd (Finset.mem_range.mp (h1 hh)) (lt_irrefl n)
          refine ⟨insert n s, ?_, ?_, ?_⟩
          · intro x hx
            rw [Finset.mem_range]
            rcases Finset.mem_insert.mp hx with rfl | hx
            · omega
            · have := Finset.mem_range.mp (h1 hx); omega
          · rw [subsetWt, Finset.sum_insert hns]
            have h2' : subsetWt weights s ≤ (j : ℤ) + 1 - weights.getD n 0 := by
              rwa [Int.toNat_of_nonneg hc] at h2
            rw [subsetWt] at h2'
            push_cast
            omega
          · rw [h, subsetVal, Finset.sum_insert hns]
            rw [subsetVal] at h3
            rw [h3]
      · rw [if_neg hc]
        rcases ih (j + 1) with ⟨s, h1, h2, h3⟩
        exact ⟨s, h1.trans (Finset.range_subset.mpr (Nat.le_succ n)), h2, h3⟩

theorem max_unbot'_eq {S : Finset α} {a : α} (ha : a ∈ S) (hub : ∀ x ∈ S, x ≤ a) :
    S.max.unbot' 0 = a := by
  have h1 : (a : WithBot α) ≤ S.max := Finset.le_max ha
  have h2 : S.max ≤ (a : WithBot α) := Finset.max_le fun b hb => WithBot.coe_le_coe.mpr (hub b hb)
  rw [le_antisymm h2 h1]
  rfl

/-- With strictly positive weights, table entry `(n, j)` is exactly the
brute-force optimum over the first `n` items at capacity `j`. -/
theorem dpTable_eq_bestValue (values : List α) (weights : List ℤ)
    (Hw : ∀ x ∈ weights, 1 ≤ x) {n : ℕ} (hn : n ≤ weights.length) (j : ℕ) :
    bestValue values weights n (j : ℤ) = dpTable values weights n j := by
  rw [bestValue]
  apply max_unbot'_eq
  · rcases exists_subset_dpTable values weights n j with ⟨s, h1, h2, h3⟩
    exact Finset.mem_image.mpr
      ⟨s, Finset.mem_filter.mpr ⟨Finset.mem_powerset.mpr h1, h2⟩, h3⟩
  · intro x hx
    rcases Finset.mem_image.mp hx with ⟨s, hs, rfl⟩
    rcases Finset.mem_filter.mp hs with ⟨hp, hwt⟩
    exact subsetVal_le_dpTable values weights Hw n hn j s (Finset.mem_powerset.mp hp) hwt

/-! ### The operational core refines the recurrence table -/

theorem getD_map_range {g : ℕ → α} {n j : ℕ} (h : j < n) (d : α) :
    ((List.range n).map g).getD j d = g j := by
  rw [List.getD_eq_getElem _ _ (by simpa using h)]
  simp [List.getElem_range]

/-- Under the marshaling preconditions, the loop leaves row `i` equal to
the recurrence table's row `i`. -/
theorem knapRow_ok (values : List α) (weights : List ℤ) (cols : ℕ)
    (Hw : ∀ x ∈ weights, 0 ≤ x) (Hlen : weights.length ≤ values.length) :
    ∀ i, i ≤ weights.length →
      knapRow values weights cols i =
        .ok ((List.range cols).map (dpTable values weights i)) := by
  intro i
  induction i with
  | zero =>
    intro _
    simp only [knapRow]
    congr 1
    have h1 : ∀ j ∈ List.range cols, dpTable values weights 0 j = 0 := fun j _ => rfl
    rw [List.map_congr_left h1, List.map_const', List.length_range]
  | succ i ih =>
    intro hi
    have hiw : i < weights.length := by omega
    simp only [knapRow]
    rw [ih (by omega), ok_bind]
    have hidx : ((i : ℕ) : ℤ) + 1 - 1 = (i : ℤ) := by ring
    rw [hidx, npGet_ok 0 weights (i : ℤ) (by positivity) (by exact_mod_cast hiw), ok_bind,
      Int.toNat_natCast]
    apply mapExcept_ok
    intro j hj
    rw [List.mem_range] at hj
    cases j with
    | zero => rw [if_pos rfl, dpTable_col0]
    | succ j =>
      rw [if_neg (Nat.succ_ne_zero j)]
      have hlen : ((List.range cols).map (dpTable values weights i)).length = cols := by
        rw [List.length_map, List.length_range]
      have hw0 : 0 ≤ weights.getD i 0 := Hw _ (getD_mem hiw 0)
      have hcast : ((j + 1 : ℕ) : ℤ) = (j : ℤ) + 1 := by push_cast; ring
      have hvidx : ((i + 1 : ℕ) : ℤ) - 1 = (i : ℤ) := by push_cast; ring
      simp only [dpEntry, hcast, hvidx]
      by_cases hc : 0 ≤ (j : ℤ) + 1 - weights.getD i 0
      · rw [if_pos hc]
        have hkeepb : (j : ℤ) + 1 < (cols : ℤ) := by
          rw [← hcast]; exact_mod_cast hj
        have hincb : (j : ℤ) + 1 - weights.getD i 0 < (cols : ℤ) := by omega
        have htn : ((j : ℤ) + 1 - weights.getD i 0).toNat < cols := by omega
        simp only [npGet_ok 0 values (i : ℤ) (by positivity)
            (by exact_mod_cast lt_of_lt_of_le hiw Hlen),
          npGet_ok 0 ((List.range cols).map (dpTable values weights i)) ((j : ℤ) + 1)
            (by positivity) (by rw [hlen]; exact hkeepb),
          npGet_ok 0 ((List.range cols).map (dpTable values weights i))
            ((j : ℤ) + 1 - weights.getD i 0) hc (by rw [hlen]; exact hincb),
          ok_bind, Int.toNat_natCast, Int.toNat_natCast_add_one]
        rw [getD_map_range hj, getD_map_range htn]
        rw [dpTable_succ, if_pos hc]
      · rw [if_neg hc]
        rw [npGet_ok 0 _ ((j : ℤ) + 1) (by positivity)
            (by rw [hlen, ← hcast]; exact_mod_cast hj),
          Int.toNat_natCast_add_one, getD_map_range hj]
        rw [dpTable_succ, if_neg hc]

/-- Under the marshaling preconditions, the core returns normally with the
bottom-right entry of the recurrence table. -/
theorem _knapsack_ok (values : List α) (weights : List ℤ) (c : ℤ)
    (Hw : ∀ x ∈ weights, 0 ≤ x) (Hlen : weights.length ≤ values.length) (Hc : 0 ≤ c) :
    _knapsack values weights c = .ok (dpTable values weights weights.length c.toNat) := by
  simp only [_knapsack]
  rw [if_neg (by omega), Nat.add_sub_cancel,
    knapRow_ok values weights (c + 1).toNat Hw Hlen weights.length le_rfl, ok_bind]
  have hc1 : c + 1 - 1 = c := by ring
  have hlen : ((List.range (c + 1).toNat).map
      (dpTable values weights weights.length)).length = (c + 1).toNat := by
    rw [List.length_map, List.length_range]
  rw [hc1, npGet_ok 0 _ c Hc (by rw [hlen]; omega), getD_map_range (by omega)]

/-- The table over the truncated values list agrees with the table over the
full values list on all rows up to the truncation point: row `i` only ever
reads `values[i-1]`. -/
theorem dpTable_take (values : List α) (weights : List ℤ) (m : ℕ) :
    ∀ i, i ≤ m → ∀ j, dpTable (values.take m) weights i j = dpTable values weights i j := by
  intro i
  induction i with
  | zero => intro _ j; rw [dpTable_zero, dpTable_zero]
  | succ i ih =>
    intro hi j
    cases j with
    | zero => rw [dpTable_col0, dpTable_col0]
    | succ j =>
      have hv : (values.take m).getD i 0 = values.getD i 0 := by
        rcases Nat.lt_or_ge i values.length with hk | hk
        · rw [List.getD_eq_getElem _ _ (by simp; omega), List.getD_eq_getElem _ _ hk]
          simp [List.getElem_take]
        · rw [List.getD_eq_default _ _ (by simp; omega), List.getD_eq_default _ _ (by omega)]
      rw [dpTable_succ, dpTable_succ, hv, ih (by omega) (j + 1), ih (by omega)]

/-! ### Claims -/

/-- C1 (counterexample): the claim fails as stated.  With `values = [5]`,
`weights = [0]`, `capacity = 0` — a valid input, since the single weight
is a non-negative integer — the brute-force optimum over subsets with
total weight at most 0 is 5 (take the zero-weight item), but the code
returns 0: the inner loop starts at column 1, so column 0 of the table is
never recomputed and zero-weight items can never be selected at residual
capacity 0. -/
theorem C1_claim_counterexample :
    knapsack ([5] : List ℤ) [0] 0 = .ok 0 ∧
    bestValue ([5] : List ℤ) [0] 1 0 = 5 ∧
    knapsack ([5] : List ℤ) [0] 0 ≠ .ok (bestValue ([5] : List ℤ) [0] 1 0) := by
  refine ⟨rfl, by decide, fun h => ?_⟩
  rw [show bestValue ([5] : List ℤ) [0] 1 0 = 5 from by decide] at h
  exact absurd (Except.ok.inj h) (by decide)

/-- C1 (amended): for every valid input whose weights are all positive
integers (rather than merely non-negative), `solve` returns the maximum
total value over all subsets of item indices whose total weight is at
most the capacity, each index used at most once. -/
theorem knapsack_eq_bestValue (values : List α) (weights : List ℤ) (c : ℤ)
    (Hlen : values.length = weights.length) (Hw : ∀ x ∈ weights, 1 ≤ x) (Hc : 0 ≤ c) :
    knapsack values weights c = .ok (bestValue values weights weights.length c) := by
  have Hw0 : ∀ x ∈ weights, (0 : ℤ) ≤ x := fun x hx => le_trans (by omega) (Hw x hx)
  rw [knapsack, _knapsack_ok values weights c Hw0 (by omega) Hc]
  have hb := dpTable_eq_bestValue values weights Hw (le_refl weights.length) c.toNat
  rw [Int.toNat_of_nonneg Hc] at hb
  rw [hb]

/-- C1 (witness): the amended theorem at `values=[1,2,3]`, `weights=[1,1,1]`,
`capacity=2`; the optimum is 5 (items 1 and 2). -/
theorem knapsack_eq_bestValue_witness :
    knapsack ([1, 2, 3] : List ℤ) [1, 1, 1] 2 = .ok (bestValue ([1, 2, 3] : List ℤ) [1, 1, 1] 3 2) ∧
    bestValue ([1, 2, 3] : List ℤ) [1, 1, 1] 3 2 = 5 := by
  constructor
  · exact knapsack_eq_bestValue ([1, 2, 3] : List ℤ) [1, 1, 1] 2 (by decide) (by decide) (by decide)
  · decide

/-- C2 (counterexample): the claim fails as stated.  A call with `values`
of length 3 and `weights` of length 2 violates the equal-length
precondition, yet no `InvalidArgument` (indeed no error at all) is
raised: the call runs the DP over the first two items and returns their
optimum 3. -/
theorem C2_claim_counterexample :
    knapsack ([1, 2, 3] : List ℤ) [1, 2] 5 = .ok 3 ∧
    returnsOk (knapsack ([1, 2, 3] : List ℤ) [1, 2] 5) = true := ⟨rfl, rfl⟩

/-- C2 (amended): the code performs no precondition validation.  In
particular, a call whose `values` sequence is strictly longer than its
`weights` sequence (weights non-negative, capacity non-negative) raises
nothing: the computation proceeds and returns normally. -/
theorem knapsack_no_validation (values : List α) (weights : List ℤ) (c : ℤ)
    (Hlen : weights.length < values.length) (Hw : ∀ x ∈ weights, 0 ≤ x) (Hc : 0 ≤ c) :
    returnsOk (knapsack values weights c) = true := by
  rw [knapsack, _knapsack_ok values weights c Hw (by omega) Hc]
  rfl

/-- C2 (witness): the amended theorem at `values=[1,2]`, `weights=[1]`,
`capacity=3`. -/
theorem knapsack_no_validation_witness :
    returnsOk (knapsack ([1, 2] : List ℤ) [1] 3) = true :=
  knapsack_no_validation ([1, 2] : List ℤ) [1] 3 (by decide) (by decide) (by decide)

/-- C4: under the preconditions the computation follows the mandated
bottom-up DP: the returned result is exactly `table(itemCount, capacity)`
for a table whose row 0 and column 0 are all zero and whose entry
`(i+1, j+1)` (row `i+1` is the claim's 1-based item row `i`) carries
`table[i][j+1]` forward when `weights[i] > j+1` and otherwise equals
`max(table[i][j+1], values[i] + table[i][j+1 - weights[i]])`. -/
theorem knapsack_follows_recurrence (values : List α) (weights : List ℤ) (c : ℤ)
    (Hlen : values.length = weights.length) (Hw : ∀ x ∈ weights, 0 ≤ x) (Hc : 0 ≤ c) :
    knapsack values weights c = .ok (dpTable values weights weights.length c.toNat) ∧
    (∀ j, dpTable values weights 0 j = 0) ∧
    (∀ i, dpTable values weights i 0 = 0) ∧
    (∀ (i j : ℕ), i < weights.length →
      ((j : ℤ) + 1 < weights.getD i 0 →
        dpTable values weights (i + 1) (j + 1) = dpTable values weights i (j + 1)) ∧
      (weights.getD i 0 ≤ (j : ℤ) + 1 →
        dpTable values weights (i + 1) (j + 1) =
          max (dpTable values weights i (j + 1))
            (values.getD i 0 +
              dpTable values weights i (j + 1 - (weights.getD i 0).toNat)))) := by
  refine ⟨by rw [knapsack]; exact _knapsack_ok values weights c Hw (by omega) Hc,
    fun j => dpTable_zero values weights j,
    fun i => dpTable_col0 values weights i,
    fun i j hi => ⟨fun hlt => ?_, fun hle => ?_⟩⟩
  · rw [dpTable_succ, if_neg (by omega)]
  · have hw0 : 0 ≤ weights.getD i 0 := Hw _ (getD_mem hi 0)
    rw [dpTable_succ, if_pos (by omega)]
    have ht : ((j : ℤ) + 1 - weights.getD i 0).toNat = j + 1 - (weights.getD i 0).toNat := by
      omega
    rw [ht]

/-- C4 (witness): the theorem at `values=[2]`, `weights=[1]`, `capacity=1`;
the table's final entry is 2. -/
theorem knapsack_follows_recurrence_witness :
    knapsack ([2] : List ℤ) [1] 1 = .ok (dpTable ([2] : List ℤ) [1] 1 1) ∧
    dpTable ([2] : List ℤ) [1] 1 1 = 2 :=
  ⟨(knapsack_follows_recurrence ([2] : List ℤ) [1] 1 (by decide) (by decide) (by decide)).1,
   by decide⟩

/-- C5: for fixed valid `values`/`weights`, the result of `solve` is
non-decreasing as the capacity increases: both calls return normally and
the value at capacity `c1 ≤ c2` is at most the value at `c2`. -/
theorem knapsack_mono_in_capacity (values : List α) (weights : List ℤ) (c1 c2 : ℤ)
    (Hlen : values.length = weights.length) (Hw : ∀ x ∈ weights, 0 ≤ x)
    (Hc1 : 0 ≤ c1) (Hc12 : c1 ≤ c2) :
    knapsack values weights c1 = .ok (dpTable values weights weights.length c1.toNat) ∧
    knapsack values weights c2 = .ok (dpTable values weights weights.length c2.toNat) ∧
    dpTable values weights weights.length c1.toNat ≤
      dpTable values weights weights.length c2.toNat :=
  ⟨by rw [knapsack]; exact _knapsack_ok values weights c1 Hw (by omega) Hc1,
   by rw [knapsack]; exact _knapsack_ok values weights c2 Hw (by omega) (by omega),
   dpTable_col_mono values weights _ (by omega)⟩

/-- C5 (witness): the theorem at `values=[1]`, `weights=[1]`, capacities
0 and 1: the results are 0 and 1. -/
theorem knapsack_mono_in_capacity_witness :
    knapsack ([1] : List ℤ) [1] 0 = .ok 0 ∧ knapsack ([1] : List ℤ) [1] 1 = .ok 1 ∧
    ((0 : ℤ) ≤ (1 : ℤ)) := by
  have h := knapsack_mono_in_capacity ([1] : List ℤ) [1] 0 1
    (by decide) (by decide) (by decide) (by decide)
  exact ⟨by rw [h.1]; rfl, by rw [h.2.1]; rfl, by decide⟩

/-- C6: for every valid `values`/`weights`, `solve(values, weights, 0) = 0`
regardless of item contents, and for the empty item list
`solve([], [], c) = 0` for every non-negative capacity `c`. -/
theorem knapsack_zero_cases (values : List α) (weights : List ℤ) (c : ℤ)
    (Hlen : values.length = weights.length) (Hw : ∀ x ∈ weights, 0 ≤ x) (Hc : 0 ≤ c) :
    knapsack values weights 0 = .ok 0 ∧ knapsack ([] : List α) [] c = .ok 0 := by
  constructor
  · rw [knapsack, _knapsack_ok values weights 0 Hw (by omega) le_rfl,
      show (0 : ℤ).toNat = 0 from rfl, dpTable_col0]
  · rw [knapsack, _knapsack_ok ([] : List α) [] c (by simp) (by simp) Hc,
      show ([] : List ℤ).length = 0 from rfl, dpTable_zero]

/-- C6 (witness): the theorem at `values=[7]`, `weights=[3]`, `capacity=4`. -/
theorem knapsack_zero_cases_witness :
    knapsack ([7] : List ℤ) [3] 0 = .ok 0 ∧ knapsack ([] : List ℤ) [] 4 = .ok 0 :=
  knapsack_zero_cases ([7] : List ℤ) [3] 4 (by decide) (by decide) (by decide)

/-- C7: for every valid input, each table row the computation builds is
given by `dpTable`, and every entry is monotonically non-decreasing in
the column for a fixed row and non-decreasing in the row for a fixed
column. -/
theorem dp_table_entries_monotone (values : List α) (weights : List ℤ) (c : ℤ)
    (Hlen : values.length = weights.length) (Hw : ∀ x ∈ weights, 0 ≤ x) (Hc : 0 ≤ c) :
    (∀ i, i ≤ weights.length →
      knapRow values weights (c + 1).toNat i =
        .ok ((List.range (c + 1).toNat).map (dpTable values weights i))) ∧
    (∀ i j j', j ≤ j' → dpTable values weights i j ≤ dpTable values weights i j') ∧
    (∀ i i' j, i ≤ i' → dpTable values weights i j ≤ dpTable values weights i' j) :=
  ⟨knapRow_ok values weights (c + 1).toNat Hw (by omega),
   fun i _ _ h => dpTable_col_mono values weights i h,
   fun _ _ j h => dpTable_row_mono values weights h j⟩

/-- C7 (witness): the theorem at `values=[1]`, `weights=[1]`, `capacity=1`:
the computed row 1 is `[0, 1]` and the monotonicity facts hold at
concrete coordinates. -/
theorem dp_table_entries_monotone_witness :
    knapRow ([1] : List ℤ) [1] 2 1 = .ok [0, 1] ∧
    dpTable ([1] : List ℤ) [1] 1 1 ≤ dpTable ([1] : List ℤ) [1] 1 2 ∧
    dpTable ([1] : List ℤ) [1] 0 1 ≤ dpTable ([1] : List ℤ) [1] 1 1 := by
  have h := dp_table_entries_monotone ([1] : List ℤ) [1] 1 (by decide) (by decide) (by decide)
  exact ⟨h.1 1 (by decide), h.2.1 1 1 2 (by decide), h.2.2 0 1 1 (by decide)⟩

/-- C8: on every input on which `knapsack` returns (weights non-negative,
capacity non-negative, values at least as long as weights), the returned
value is the table's final entry, which is bounded below by the zero base
row — so it is at least 0 even when some item values are negative. -/
theorem knapsack_result_nonneg (values : List α) (weights : List ℤ) (c : ℤ)
    (Hlen : weights.length ≤ values.length) (Hw : ∀ x ∈ weights, 0 ≤ x) (Hc : 0 ≤ c) :
    knapsack values weights c = .ok (dpTable values weights weights.length c.toNat) ∧
    0 ≤ dpTable values weights weights.length c.toNat :=
  ⟨by rw [knapsack]; exact _knapsack_ok values weights c Hw Hlen Hc,
   dpTable_nonneg values weights _ _⟩

/-- C8 (witness): the theorem at the negative item value `-3` with
`weights=[1]`, `capacity=1`: the result is 0. -/
theorem knapsack_result_nonneg_witness :
    knapsack ([-3] : List ℤ) [1] 1 = .ok 0 ∧ (0 : ℤ) ≤ 0 := by
  have h := knapsack_result_nonneg ([-3] : List ℤ) [1] 1 (by decide) (by decide) (by decide)
  exact ⟨by rw [h.1]; rfl, le_rfl⟩

/-- C9: a call whose `values` sequence is strictly longer than its
`weights` sequence (weights non-negative, capacity non-negative) succeeds,
returning the DP optimum over only the first `len(weights)` items: the
surplus values are silently ignored, and the call agrees with the call on
the truncated values list. -/
theorem knapsack_ignores_surplus_values (values : List α) (weights : List ℤ) (c : ℤ)
    (Hlen : weights.length < values.length) (Hw : ∀ x ∈ weights, 0 ≤ x) (Hc : 0 ≤ c) :
    knapsack values weights c = .ok (dpTable values weights weights.length c.toNat) ∧
    knapsack values weights c = knapsack (values.take weights.length) weights c := by
  have h1 : knapsack values weights c = .ok (dpTable values weights weights.length c.toNat) := by
    rw [knapsack]; exact _knapsack_ok values weights c Hw (by omega) Hc
  refine ⟨h1, ?_⟩
  have h2 : knapsack (values.take weights.length) weights c =
      .ok (dpTable (values.take weights.length) weights weights.length c.toNat) := by
    rw [knapsack]
    exact _knapsack_ok (values.take weights.length) weights c Hw
      (by rw [List.length_take]; omega) Hc
  rw [h1, h2, dpTable_take values weights weights.length weights.length le_rfl]

/-- C9 (witness): the theorem at `values=[1,2,3]`, `weights=[2]`,
`capacity=2`: the result is 1 (only the first item is considered) and
agrees with the call on the truncated list `[1]`. -/
theorem knapsack_ignores_surplus_values_witness :
    knapsack ([1, 2, 3] : List ℤ) [2] 2 = .ok 1 ∧
    knapsack ([1, 2, 3] : List ℤ) [2] 2 = knapsack ([1] : List ℤ) [2] 2 := by
  have h := knapsack_ignores_surplus_values ([1, 2, 3] : List ℤ) [2] 2
    (by decide) (by decide) (by decide)
  exact ⟨by rw [h.1]; rfl, h.2⟩

/-- C10: under the preconditions every buffer access of the core loop is
in bounds — in the model every access is bounds-checked and any violation
surfaces as an error, so the core returning normally states exactly that
the out-of-bounds error branch is unreachable. -/
theorem knapsack_core_in_bounds (values : List α) (weights : List ℤ) (c : ℤ)
    (Hlen : values.length = weights.length) (Hw : ∀ x ∈ weights, 0 ≤ x) (Hc : 0 ≤ c) :
    returnsOk (_knapsack values weights c) = true := by
  rw [_knapsack_ok values weights c Hw (by omega) Hc]
  rfl

/-- C10 (witness): the theorem at `values=[4]`, `weights=[2]`, `capacity=3`. -/
theorem knapsack_core_in_bounds_witness :
    returnsOk (_knapsack ([4] : List ℤ) [2] 3) = true :=
  knapsack_core_in_bounds ([4] : List ℤ) [2] 3 (by decide) (by decide) (by decide)

end Knapsack
